import Mathlib

/-!
# Journal Recovery & Repair Engine — verification development

A shallow embedding of the disaster-recovery subsystem exercised by
`tasks/mds_journal_repair.py` (dentry recovery from a write-ahead journal,
table reset, rank-scoped object erasure, and the recovery orchestrator),
together with proofs of the testable properties stated for it.

The engine itself (journal tool, table tool, object eraser, orchestrator)
is not part of the repository's sources; only its test harness is.  The
definitions below are therefore modelled from the specification of the
engine, and each such definition says so in its doc comment.
-/

set_option maxRecDepth 4000

/-- Modelled from the spec: snapshot identifier of a dentry; `head` is the
live (non-snapshot) version, `snap n` a snapshot id. -/
inductive SnapId
  | head
  | snap (n : Nat)
  deriving DecidableEq, Repr

/-- Inode numbers are 64-bit in the real system; modelled as `Nat`. -/
abbrev Ino := Nat

/-- Modelled from the spec: minimal inode metadata carried by an
`UpdateDentry` event, enough to synthesize a non-dangling inode record. -/
structure InodeMeta where
  mode : Nat
  deriving DecidableEq, Repr

/-- Modelled from the spec: a dentry value — a versioned link to an inode.
The key `(parent_ino, frag_id, name, snap_id)` lives outside this record. -/
structure Dentry where
  version : Nat
  ino : Ino
  meta : InodeMeta
  deriving DecidableEq, Repr

/-- Full dentry key: `(parent_ino, frag_id, name, snap_id)`. -/
abbrev DKey := Ino × Nat × String × SnapId

/-- Modelled from the spec: scope of a backing-store object key — either the
shared/global namespace or a rank-scoped namespace. -/
inductive Scope
  | global
  | rank (r : Nat)
  deriving DecidableEq, Repr

/-- Modelled from the spec: a backing-store object key, carrying its scope
and an object identifier. -/
structure ObjKey where
  scope : Scope
  oid : String
  deriving DecidableEq, Repr

/-- Modelled from the spec: the backing store visible to the recovery
engine: the set of existing DirFrags, the dentries keyed by
`(parent_ino, frag_id, name, snap_id)`, the inode records, and the raw
rank-scoped objects seen by the object eraser. -/
@[ext]
structure Store where
  frags : Finset (Ino × Nat)
  dentries : Finmap (fun _ : DKey => Dentry)
  inodes : Finmap (fun _ : Ino => InodeMeta)
  objects : Finset ObjKey

/-- The empty backing store. -/
def Store.empty : Store := ⟨∅, ∅, ∅, ∅⟩

/-- Modelled from the spec: journal events.  The spec's §3 data model lists
`UnlinkDentry` without a version field, but §4.3's algorithm compares the
unlink event's version against the stored one, so the version is carried
here as well. -/
inductive Event
  | updateDentry (parent : Ino) (frag : Nat) (name : String) (snap : SnapId)
      (version : Nat) (ino : Ino) (meta : InodeMeta)
  | unlinkDentry (parent : Ino) (frag : Nat) (name : String) (snap : SnapId)
      (version : Nat)
  | openSession (client : Nat)
  | closeSession (client : Nat)
  | noop
  | subtreeMap
  deriving DecidableEq, Repr

/-- Modelled from the spec (§4.3, step 1): insert or overwrite the dentry
at `key` only if the event's version is strictly greater than any existing
version for that key. -/
def updDentries (dm : Finmap (fun _ : DKey => Dentry)) (key : DKey)
    (v : Nat) (ino : Ino) (meta : InodeMeta) : Finmap (fun _ : DKey => Dentry) :=
  match dm.lookup key with
  | none => dm.insert key ⟨v, ino, meta⟩
  | some d => if d.version < v then dm.insert key ⟨v, ino, meta⟩ else dm

/-- Modelled from the spec (§4.3, step 2): remove the dentry at `key` if
present and its version is not newer than the event's version. -/
def unlDentries (dm : Finmap (fun _ : DKey => Dentry)) (key : DKey)
    (v : Nat) : Finmap (fun _ : DKey => Dentry) :=
  match dm.lookup key with
  | some d => if d.version ≤ v then dm.erase key else dm
  | none => dm

/-- Modelled from the spec (§4.3, step 1): synthesize a minimal inode
record from the event's metadata when the linked inode is not yet present. -/
def synthInode (im : Finmap (fun _ : Ino => InodeMeta)) (ino : Ino)
    (meta : InodeMeta) : Finmap (fun _ : Ino => InodeMeta) :=
  match im.lookup ino with
  | none => im.insert ino meta
  | some _ => im

/-- Modelled from the spec (§4.3): apply one journal event to the backing
store.  `UpdateDentry` creates the target DirFrag if absent, inserts or
overwrites the dentry only if the event's version is strictly greater
than the stored one, and synthesizes a minimal inode record when the
linked inode is not yet present.  `UnlinkDentry` removes the dentry only
when the stored version is not newer than the event's.  All other event
kinds are skipped. -/
def applyEvent (s : Store) : Event → Store
  | .updateDentry p f name snap v ino meta =>
    { s with
      frags := insert (p, f) s.frags
      dentries := updDentries s.dentries (p, f, name, snap) v ino meta
      inodes := synthInode s.inodes ino meta }
  | .unlinkDentry p f name snap v =>
    { s with dentries := unlDentries s.dentries (p, f, name, snap) v }
  | _ => s

/-- Modelled from the spec (§4.3): the Dentry Recovery Engine replays the
journal's event sequence against the backing store, in journal order. -/
def recoverDentries (s : Store) (j : List Event) : Store :=
  j.foldl applyEvent s

/-- Root inode number (`ROOT_INO` in the test harness; 1 in the system). -/
def ROOT_INO : Ino := 1

/-- Bare names of the dentries present in a given DirFrag of the store. -/
def dirFragNames (s : Store) (ino : Ino) (frag : Nat) : Multiset String :=
  s.dentries.entries.filterMap fun e =>
    if e.1.1 = ino ∧ e.1.2.1 = frag then some e.1.2.2.1 else none

/-- Modelled from the spec / test harness: the key under which a dentry is
exposed by the listing interface — the name suffixed with `_head` for the
head snapshot, or with the snapshot id otherwise. -/
def listingKey (name : String) : SnapId → String
  | .head => name ++ "_head"
  | .snap n => name ++ "_" ++ toString n

/-- Keys exposed when listing a DirFrag through the listing interface. -/
def listDirFrag (s : Store) (ino : Ino) (frag : Nat) : Multiset String :=
  s.dentries.entries.filterMap fun e =>
    if e.1.1 = ino ∧ e.1.2.1 = frag then some (listingKey e.1.2.2.1 e.1.2.2.2) else none

/-! ## Per-key view of dentry recovery -/

/-- Per-key view of a dentry-affecting event: an overwrite-if-newer or an
unlink-if-not-newer at a fixed dentry key. -/
inductive KOp
  | upd (v : Nat) (ino : Ino) (meta : InodeMeta)
  | unl (v : Nat)
  deriving DecidableEq, Repr

/-- The per-key operation (if any) that an event performs at dentry key `k`. -/
def opAt (k : DKey) : Event → Option KOp
  | .updateDentry p f name snap v ino meta =>
    if (p, f, name, snap) = k then some (.upd v ino meta) else none
  | .unlinkDentry p f name snap v =>
    if (p, f, name, snap) = k then some (.unl v) else none
  | _ => none

/-- Per-key transition of the stored dentry value under one operation. -/
def keyStep : Option Dentry → KOp → Option Dentry
  | none, .upd v i m => some ⟨v, i, m⟩
  | some d, .upd v i m => if d.version < v then some ⟨v, i, m⟩ else some d
  | some d, .unl v => if d.version ≤ v then none else some d
  | none, .unl _ => none

/-- Which DirFrag (if any) an event creates. -/
def eventFrag : Event → Option (Ino × Nat)
  | .updateDentry p f _ _ _ _ _ => some (p, f)
  | _ => none

/-- Which inode record (if any) an event would synthesize for inode `i`. -/
def synthAt (i : Ino) : Event → Option InodeMeta
  | .updateDentry _ _ _ _ _ ino m => if ino = i then some m else none
  | _ => none

/-- Left-biased choice on options. -/
def optOr : Option α → Option α → Option α
  | some x, _ => some x
  | none, b => b

theorem lookup_updDentries (dm : Finmap (fun _ : DKey => Dentry)) (key : DKey)
    (v : Nat) (ino : Ino) (meta : InodeMeta) (k : DKey) :
    (updDentries dm key v ino meta).lookup k =
      if key = k then keyStep (dm.lookup k) (.upd v ino meta) else dm.lookup k := by
  by_cases hk : key = k
  · subst hk
    simp only [if_pos rfl]
    cases h : dm.lookup key with
    | none => simp [updDentries, h, keyStep, Finmap.lookup_insert]
    | some d =>
      by_cases hv : d.version < v
      · simp [updDentries, h, keyStep, hv, Finmap.lookup_insert]
      · simp [updDentries, h, keyStep, hv]
  · simp only [if_neg hk]
    cases h : dm.lookup key with
    | none => simp [updDentries, h, Finmap.lookup_insert_of_ne _ (Ne.symm hk)]
    | some d =>
      by_cases hv : d.version < v
      · simp [updDentries, h, hv, Finmap.lookup_insert_of_ne _ (Ne.symm hk)]
      · simp [updDentries, h, hv]

theorem lookup_unlDentries (dm : Finmap (fun _ : DKey => Dentry)) (key : DKey)
    (v : Nat) (k : DKey) :
    (unlDentries dm key v).lookup k =
      if key = k then keyStep (dm.lookup k) (.unl v) else dm.lookup k := by
  by_cases hk : key = k
  · subst hk
    cases h : dm.lookup key with
    | none => simp [unlDentries, h, keyStep]
    | some d =>
      by_cases hv : d.version ≤ v
      · simp [unlDentries, h, keyStep, hv, Finmap.lookup_erase]
      · simp [unlDentries, h, keyStep, hv]
  · simp only [if_neg hk]
    cases h : dm.lookup key with
    | none => simp [unlDentries, h]
    | some d =>
      by_cases hv : d.version ≤ v
      · simp [unlDentries, h, hv, Finmap.lookup_erase_ne (Ne.symm hk)]
      · simp [unlDentries, h, hv]

theorem dentries_applyEvent (s : Store) (e : Event) (k : DKey) :
    (applyEvent s e).dentries.lookup k =
      match opAt k e with
      | some op => keyStep (s.dentries.lookup k) op
      | none => s.dentries.lookup k := by
  cases e with
  | updateDentry p f name snap v ino meta =>
    simp only [applyEvent, opAt, lookup_updDentries]
    by_cases hk : (p, f, name, snap) = k <;> simp [hk]
  | unlinkDentry p f name snap v =>
    simp only [applyEvent, opAt, lookup_unlDentries]
    by_cases hk : (p, f, name, snap) = k <;> simp [hk]
  | openSession c => rfl
  | closeSession c => rfl
  | noop => rfl
  | subtreeMap => rfl

theorem frags_applyEvent (s : Store) (e : Event) :
    (applyEvent s e).frags =
      match eventFrag e with
      | some pf => insert pf s.frags
      | none => s.frags := by
  cases e <;> rfl

theorem lookup_synthInode (im : Finmap (fun _ : Ino => InodeMeta)) (ino : Ino)
    (meta : InodeMeta) (i : Ino) :
    (synthInode im ino meta).lookup i =
      optOr (im.lookup i) (if ino = i then some meta else none) := by
  by_cases hi : ino = i
  · subst hi
    cases h : im.lookup ino with
    | none => simp [synthInode, h, optOr, Finmap.lookup_insert]
    | some m => simp [synthInode, h, optOr]
  · cases h : im.lookup ino with
    | none =>
      cases h2 : im.lookup i with
      | none => simp [synthInode, h, h2, optOr, hi, Finmap.lookup_insert_of_ne _ (Ne.symm hi)]
      | some m => simp [synthInode, h, h2, optOr, hi, Finmap.lookup_insert_of_ne _ (Ne.symm hi)]
    | some m =>
      cases h2 : im.lookup i with
      | none => simp [synthInode, h, h2, optOr, hi]
      | some m2 => simp [synthInode, h, h2, optOr, hi]

theorem inodes_applyEvent (s : Store) (e : Event) (i : Ino) :
    (applyEvent s e).inodes.lookup i = optOr (s.inodes.lookup i) (synthAt i e) := by
  cases e with
  | updateDentry p f name snap v ino meta =>
    simp only [applyEvent, synthAt, lookup_synthInode]
  | unlinkDentry p f name snap v => cases h : s.inodes.lookup i <;> simp [applyEvent, synthAt, optOr, h]
  | openSession c => cases h : s.inodes.lookup i <;> simp [applyEvent, synthAt, optOr, h]
  | closeSession c => cases h : s.inodes.lookup i <;> simp [applyEvent, synthAt, optOr, h]
  | noop => cases h : s.inodes.lookup i <;> simp [applyEvent, synthAt, optOr, h]
  | subtreeMap => cases h : s.inodes.lookup i <;> simp [applyEvent, synthAt, optOr, h]

theorem objects_applyEvent (s : Store) (e : Event) :
    (applyEvent s e).objects = s.objects := by
  cases e <;> rfl

theorem lookup_recoverDentries (j : List Event) (s : Store) (k : DKey) :
    (recoverDentries s j).dentries.lookup k =
      (j.filterMap (opAt k)).foldl keyStep (s.dentries.lookup k) := by
  induction j generalizing s with
  | nil => rfl
  | cons e rest ih =>
    show (recoverDentries (applyEvent s e) rest).dentries.lookup k = _
    rw [ih]
    cases h : opAt k e with
    | none => simp [List.filterMap_cons, h, dentries_applyEvent, h]
    | some op =>
      simp only [List.filterMap_cons, h, List.foldl_cons]
      rw [dentries_applyEvent]
      simp [h]

theorem frags_recoverDentries (j : List Event) (s : Store) :
    (recoverDentries s j).frags = s.frags ∪ (j.filterMap eventFrag).toFinset := by
  induction j generalizing s with
  | nil => simp [recoverDentries]
  | cons e rest ih =>
    show (recoverDentries (applyEvent s e) rest).frags = _
    rw [ih, frags_applyEvent]
    cases h : eventFrag e with
    | none => simp [List.filterMap_cons, h]
    | some pf =>
      simp only [List.filterMap_cons, h, List.toFinset_cons]
      rw [Finset.insert_union, Finset.union_insert]

theorem inodes_recoverDentries (j : List Event) (s : Store) (i : Ino) :
    (recoverDentries s j).inodes.lookup i =
      optOr (s.inodes.lookup i) (j.findSome? (synthAt i)) := by
  induction j generalizing s with
  | nil => cases h : s.inodes.lookup i <;> simp [recoverDentries, optOr, h]
  | cons e rest ih =>
    show (recoverDentries (applyEvent s e) rest).inodes.lookup i = _
    rw [ih, inodes_applyEvent]
    cases h : synthAt i e with
    | none =>
      cases h2 : s.inodes.lookup i <;>
        simp [List.findSome?_cons, h, h2, optOr]
    | some m =>
      cases h2 : s.inodes.lookup i <;>
        simp [List.findSome?_cons, h, h2, optOr]

theorem objects_recoverDentries (j : List Event) (s : Store) :
    (recoverDentries s j).objects = s.objects := by
  induction j generalizing s with
  | nil => rfl
  | cons e rest ih =>
    show (recoverDentries (applyEvent s e) rest).objects = _
    rw [ih, objects_applyEvent]

/-! ## Idempotence of the per-key replay -/

/-- Version of an optional dentry, with `none` read as version `0`. -/
def verO : Option Dentry → Nat
  | none => 0
  | some d => d.version

theorem verO_keyStep_upd (x : Option Dentry) (v : Nat) (i : Ino) (m : InodeMeta) :
    verO (keyStep x (.upd v i m)) = max (verO x) v := by
  cases x with
  | none => simp [keyStep, verO]
  | some d =>
    by_cases hv : d.version < v <;> simp [keyStep, verO, hv] <;> omega

theorem verO_keyStep_unl (x : Option Dentry) (v : Nat) :
    verO (keyStep x (.unl v)) = if verO x ≤ v then 0 else verO x := by
  cases x with
  | none => simp [keyStep, verO]
  | some d =>
    by_cases hv : d.version ≤ v <;> simp [keyStep, verO, hv]

theorem verO_keyStep_mono {x y : Option Dentry} (op : KOp) (h : verO x ≤ verO y) :
    verO (keyStep x op) ≤ verO (keyStep y op) := by
  cases op with
  | upd v i m => rw [verO_keyStep_upd, verO_keyStep_upd]; omega
  | unl v => rw [verO_keyStep_unl, verO_keyStep_unl]; split <;> split <;> omega

theorem verO_foldl_mono (ops : List KOp) :
    ∀ {x y : Option Dentry}, verO x ≤ verO y →
      verO (ops.foldl keyStep x) ≤ verO (ops.foldl keyStep y) := by
  induction ops with
  | nil => intro x y h; exact h
  | cons op rest ih => intro x y h; exact ih (verO_keyStep_mono op h)

/-- Two per-key replays started from an arbitrary state and from a state
that dominates it (in version) either merge, or never disturb the
dominating state. -/
theorem keyRun_pair (ops : List KOp) :
    ∀ (d : Dentry) (z : Option Dentry), verO z ≤ d.version →
      ops.foldl keyStep z = ops.foldl keyStep (some d) ∨
        ops.foldl keyStep (some d) = some d := by
  induction ops with
  | nil => intro d z _; right; rfl
  | cons op rest ih =>
    intro d z hz
    cases op with
    | upd v i m =>
      by_cases hv : d.version < v
      · -- the update fires on both states, which merge
        left
        have hy : keyStep (some d) (.upd v i m) = some ⟨v, i, m⟩ := by
          simp [keyStep, hv]
        have hzs : keyStep z (.upd v i m) = some ⟨v, i, m⟩ := by
          cases z with
          | none => rfl
          | some e =>
            have : e.version < v := by
              have : verO (some e) ≤ d.version := hz
              simp [verO] at this; omega
            simp [keyStep, this]
        simp only [List.foldl_cons, hy, hzs]
      · -- the update leaves the dominating state alone
        have hy : keyStep (some d) (.upd v i m) = some d := by
          simp [keyStep, hv]
        have hz' : verO (keyStep z (.upd v i m)) ≤ d.version := by
          rw [verO_keyStep_upd]; omega
        simp only [List.foldl_cons, hy]
        exact ih d _ hz'
    | unl v =>
      by_cases hv : d.version ≤ v
      · -- the unlink kills both states, which merge
        left
        have hy : keyStep (some d) (.unl v) = none := by
          simp [keyStep, hv]
        have hzs : keyStep z (.unl v) = none := by
          cases z with
          | none => rfl
          | some e =>
            have : verO (some e) ≤ d.version := hz
            simp only [verO] at this
            have : e.version ≤ v := le_trans this hv
            simp [keyStep, this]
        simp only [List.foldl_cons, hy, hzs]
      · -- the unlink leaves the dominating state alone
        have hy : keyStep (some d) (.unl v) = some d := by
          simp [keyStep, hv]
        have hz' : verO (keyStep z (.unl v)) ≤ d.version := by
          rw [verO_keyStep_unl]; split <;> omega
        simp only [List.foldl_cons, hy]
        exact ih d _ hz'

/-- Replaying the same per-key operation list twice is the same as
replaying it once. -/
theorem keyRun_idem (ops : List KOp) (x : Option Dentry) :
    ops.foldl keyStep (ops.foldl keyStep x) = ops.foldl keyStep x := by
  induction ops using List.reverseRecOn generalizing x with
  | nil => rfl
  | append_singleton l b ih =>
    simp only [List.foldl_append, List.foldl_cons, List.foldl_nil]
    by_cases hb : keyStep (l.foldl keyStep x) b = l.foldl keyStep x
    · rw [hb, ih x, hb]
    · cases b with
      | unl v =>
        -- a firing unlink: the stored version was at most v, so the rerun,
        -- whose version can only be lower, is erased by it as well
        obtain ⟨d, hd, hdv⟩ : ∃ d, l.foldl keyStep x = some d ∧ d.version ≤ v := by
          cases hu : l.foldl keyStep x with
          | none => rw [hu] at hb; exact absurd rfl hb
          | some d =>
            by_cases hv : d.version ≤ v
            · exact ⟨d, rfl, hv⟩
            · rw [hu] at hb; simp [keyStep, hv] at hb
        have ht : keyStep (l.foldl keyStep x) (.unl v) = none := by
          rw [hd]; simp [keyStep, hdv]
        rw [ht]
        have hm : verO (l.foldl keyStep none) ≤ v := by
          have h0 : verO (none : Option Dentry) ≤ verO x := by simp [verO]
          have h1 := verO_foldl_mono l h0
          have h2 : verO (l.foldl keyStep x) = d.version := by rw [hd]; rfl
          omega
        cases hr : l.foldl keyStep none with
        | none => rfl
        | some e =>
          rw [hr] at hm
          simp only [verO] at hm
          simp [keyStep, hm]
      | upd v i m =>
        -- a firing update: the stored version was below v; by keyRun_pair the
        -- rerun from the freshly written dentry either merges with the first
        -- run or never disturbs that dentry
        have hvle : verO (l.foldl keyStep x) ≤ v ∧
            keyStep (l.foldl keyStep x) (.upd v i m) = some ⟨v, i, m⟩ := by
          cases hu : l.foldl keyStep x with
          | none => exact ⟨by simp [verO], rfl⟩
          | some d =>
            by_cases hv : d.version < v
            · exact ⟨by simp [verO]; omega, by simp [keyStep, hv]⟩
            · rw [hu] at hb; simp [keyStep, hv] at hb
        rw [hvle.2]
        rcases keyRun_pair l ⟨v, i, m⟩ (l.foldl keyStep x) hvle.1 with hc | hc
        · rw [← hc, ih x, hvle.2]
        · rw [hc]; simp [keyStep]

theorem optOr_optOr_self (a b : Option α) : optOr (optOr a b) b = optOr a b := by
  cases a <;> cases b <;> rfl

/-- C2 — Idempotence of dentry recovery: for every journal and every
initial backing-store state, running the Dentry Recovery Engine twice over
that same (unreset) journal from that initial state yields a final store
state identical to running it once. -/
theorem recoverDentries_idem (s : Store) (j : List Event) :
    recoverDentries (recoverDentries s j) j = recoverDentries s j := by
  apply Store.ext
  · rw [frags_recoverDentries, frags_recoverDentries, Finset.union_assoc,
      Finset.union_self]
  · apply Finmap.ext_lookup
    intro k
    rw [lookup_recoverDentries, lookup_recoverDentries]
    exact keyRun_idem _ _
  · apply Finmap.ext_lookup
    intro i
    rw [inodes_recoverDentries, inodes_recoverDentries, optOr_optOr_self]
  · rw [objects_recoverDentries, objects_recoverDentries]

/-! ## Stale unlinks, version monotonicity, provenance -/

/-- C5 — Stale unlink is ignored: if an `UnlinkDentry` event's version is
older than the version of the dentry currently stored at its key, the
unlink removes nothing and the store is unchanged. -/
theorem unlink_stale_ignored (s : Store) (p : Ino) (f : Nat) (name : String)
    (snap : SnapId) (v : Nat) (d : Dentry)
    (hl : s.dentries.lookup (p, f, name, snap) = some d)
    (hv : v < d.version) :
    applyEvent s (.unlinkDentry p f name snap v) = s := by
  have : ¬ d.version ≤ v := by omega
  simp [applyEvent, unlDentries, hl, this]

/-- C5 witness — the spec scenario: after `UpdateDentry("x", v2)` followed
by `UnlinkDentry("x", v1)` the store still contains `x` at version 2. -/
theorem unlink_stale_ignored_witness :
    (recoverDentries Store.empty
        [Event.updateDentry ROOT_INO 0 "x" SnapId.head 2 100 ⟨0⟩,
         Event.unlinkDentry ROOT_INO 0 "x" SnapId.head 1]).dentries.lookup
      (ROOT_INO, 0, "x", SnapId.head) = some ⟨2, 100, ⟨0⟩⟩ := by
  have hl : (applyEvent Store.empty
      (Event.updateDentry ROOT_INO 0 "x" SnapId.head 2 100 ⟨0⟩)).dentries.lookup
      (ROOT_INO, 0, "x", SnapId.head) = some ⟨2, 100, ⟨0⟩⟩ := by decide
  have h2 := unlink_stale_ignored _ ROOT_INO 0 "x" SnapId.head 1 ⟨2, 100, ⟨0⟩⟩ hl
    (by decide)
  have hr : recoverDentries Store.empty
      [Event.updateDentry ROOT_INO 0 "x" SnapId.head 2 100 ⟨0⟩,
       Event.unlinkDentry ROOT_INO 0 "x" SnapId.head 1]
      = applyEvent (applyEvent Store.empty
          (Event.updateDentry ROOT_INO 0 "x" SnapId.head 2 100 ⟨0⟩))
          (Event.unlinkDentry ROOT_INO 0 "x" SnapId.head 1) := rfl
  rw [hr, h2]
  exact hl

/-- C4 counterexample — as literally stated ("for every sequence of
recovery operations the version stored under a key never decreases"), the
claim fails: an unlink at the stored version followed by an update at a
lower version re-creates the dentry with a smaller version than one
previously observed at the same key. -/
theorem version_monotone_cex :
    ((recoverDentries Store.empty
        [Event.updateDentry ROOT_INO 0 "x" SnapId.head 5 100 ⟨0⟩]).dentries.lookup
      (ROOT_INO, 0, "x", SnapId.head) = some ⟨5, 100, ⟨0⟩⟩)
    ∧ ((recoverDentries Store.empty
        [Event.updateDentry ROOT_INO 0 "x" SnapId.head 5 100 ⟨0⟩,
         Event.unlinkDentry ROOT_INO 0 "x" SnapId.head 5,
         Event.updateDentry ROOT_INO 0 "x" SnapId.head 3 100 ⟨0⟩]).dentries.lookup
      (ROOT_INO, 0, "x", SnapId.head) = some ⟨3, 100, ⟨0⟩⟩)
    ∧ 3 < 5 := by
  refine ⟨by decide, by decide, by decide⟩

/-- C4 amended — version monotonicity in place: a single recovery operation
never lowers the version of a dentry that remains stored under its key; an
`UpdateDentry` overwrites an existing dentry only when the event's version
is strictly greater (a decrease across a sequence is possible only through
removal followed by re-insertion). -/
theorem version_monotone_step (s : Store) (e : Event) (k : DKey) (d d' : Dentry)
    (h : s.dentries.lookup k = some d)
    (h' : (applyEvent s e).dentries.lookup k = some d') :
    d.version ≤ d'.version := by
  rw [dentries_applyEvent] at h'
  cases hop : opAt k e with
  | none =>
    rw [hop] at h'
    simp only [h] at h'
    cases h'
    exact le_refl _
  | some op =>
    rw [hop] at h'
    simp only [h] at h'
    cases op with
    | upd v i m =>
      by_cases hv : d.version < v
      · simp [keyStep, hv] at h'
        cases h'
        exact Nat.le_of_lt hv
      · simp [keyStep, hv] at h'
        cases h'
        exact le_refl _
    | unl v =>
      by_cases hv : d.version ≤ v
      · simp [keyStep, hv] at h'
      · simp [keyStep, hv] at h'
        cases h'
        exact le_refl _

/-- C4 witness — a concrete in-place overwrite: version 1 is overwritten
by version 2, and 1 ≤ 2. -/
theorem version_monotone_step_witness :
    (Store.empty.dentries.insert (ROOT_INO, 0, "x", SnapId.head)
        (⟨1, 100, ⟨0⟩⟩ : Dentry)) = (applyEvent Store.empty
        (Event.updateDentry ROOT_INO 0 "x" SnapId.head 1 100 ⟨0⟩)).dentries
    ∧ (1 : Nat) ≤ 2 := by
  constructor
  · decide
  · exact version_monotone_step
      (applyEvent Store.empty (Event.updateDentry ROOT_INO 0 "x" SnapId.head 1 100 ⟨0⟩))
      (Event.updateDentry ROOT_INO 0 "x" SnapId.head 2 100 ⟨0⟩)
      (ROOT_INO, 0, "x", SnapId.head) ⟨1, 100, ⟨0⟩⟩ ⟨2, 100, ⟨0⟩⟩
      (by decide) (by decide)

/-- The basic-recovery scenario journal: `UpdateDentry` events for names
`a` and `b` in the root DirFrag of rank 0. -/
def basicJournal : List Event :=
  [Event.updateDentry ROOT_INO 0 "a" SnapId.head 1 100 ⟨0⟩,
   Event.updateDentry ROOT_INO 0 "b" SnapId.head 1 101 ⟨0⟩]

/-- C1 — Basic recovery: applying the basic-recovery journal to an
initially empty backing store makes the root DirFrag exist in the store,
and listing it yields exactly the dentries `{"a", "b"}`. -/
theorem basic_recovery :
    (ROOT_INO, 0) ∈ (recoverDentries Store.empty basicJournal).frags
    ∧ dirFragNames (recoverDentries Store.empty basicJournal) ROOT_INO 0
        = {"a", "b"} := by
  constructor
  · decide
  · decide

/-- C10 — Head-snapshot dentry naming at the listing interface: a dentry
stored for the head snapshot is exposed by the listing under its name
suffixed with `_head`, and that listing key is never the bare name. -/
theorem listing_head_suffix (s : Store) (ino : Ino) (frag : Nat) (name : String)
    (d : Dentry)
    (h : s.dentries.lookup (ino, frag, name, SnapId.head) = some d) :
    (name ++ "_head") ∈ listDirFrag s ino frag
    ∧ listingKey name SnapId.head ≠ name := by
  constructor
  · have hmem : (Sigma.mk (α := DKey) (β := fun _ => Dentry)
        (ino, frag, name, SnapId.head) d) ∈ s.dentries.entries :=
      Finmap.mem_lookup_iff.mp (by rw [h]; rfl)
    refine (Multiset.mem_filterMap _ _).mpr ⟨_, hmem, ?_⟩
    simp [listingKey]
  · intro hc
    have h1 := congrArg String.length hc
    simp only [listingKey, String.length_append] at h1
    have h5 : "_head".length = 5 := rfl
    omega

/-- C10 witness — recovering `rootfile` at the head snapshot exposes it in
the listing as `rootfile_head`, not as `rootfile`. -/
theorem listing_head_suffix_witness :
    ("rootfile" ++ "_head") ∈
        listDirFrag (recoverDentries Store.empty
          [Event.updateDentry ROOT_INO 0 "rootfile" SnapId.head 1 100 ⟨0⟩])
          ROOT_INO 0
    ∧ listingKey "rootfile" SnapId.head ≠ "rootfile" :=
  listing_head_suffix
    (recoverDentries Store.empty
      [Event.updateDentry ROOT_INO 0 "rootfile" SnapId.head 1 100 ⟨0⟩])
    ROOT_INO 0 "rootfile" ⟨1, 100, ⟨0⟩⟩ (by decide)

/-- Any dentry produced by a per-key replay from an absent key carries the
payload of some update operation in the replayed list. -/
theorem keyRun_some_source (ops : List KOp) :
    ∀ (x : Option Dentry) (d : Dentry),
      ops.foldl keyStep x = some d →
        x = some d ∨ KOp.upd d.version d.ino d.meta ∈ ops := by
  induction ops with
  | nil =>
    intro x d h
    exact Or.inl h
  | cons op rest ih =>
    intro x d h
    rcases ih _ _ h with h1 | h1
    · cases op with
      | upd v i m =>
        cases x with
        | none =>
          right
          have : (⟨v, i, m⟩ : Dentry) = d := by
            simpa [keyStep] using h1
          rw [← this]
          exact List.mem_cons_self _ _
        | some e =>
          by_cases hv : e.version < v
          · right
            have : (⟨v, i, m⟩ : Dentry) = d := by
              simpa [keyStep, hv] using h1
            rw [← this]
            exact List.mem_cons_self _ _
          · left
            simpa [keyStep, hv] using h1
      | unl v =>
        cases x with
        | none => simp [keyStep] at h1
        | some e =>
          by_cases hv : e.version ≤ v
          · simp [keyStep, hv] at h1
          · left
            simpa [keyStep, hv] using h1
    · right
      exact List.mem_cons_of_mem _ h1

/-- C9 — Inode identity is preserved by recovery: every dentry present
after recovering a journal into an initially empty backing store carries
exactly the version, inode number and metadata journalled for its key by
some `UpdateDentry` event; recovery re-links existing inode numbers and
never assigns new ones. -/
theorem recovered_ino_from_journal (j : List Event) (p : Ino) (f : Nat)
    (name : String) (snap : SnapId) (d : Dentry)
    (h : (recoverDentries Store.empty j).dentries.lookup (p, f, name, snap)
      = some d) :
    Event.updateDentry p f name snap d.version d.ino d.meta ∈ j := by
  rw [lookup_recoverDentries] at h
  have h0 : Store.empty.dentries.lookup (p, f, name, snap) = none :=
    Finmap.lookup_empty _
  rw [h0] at h
  rcases keyRun_some_source _ _ _ h with h1 | h1
  · exact absurd h1 (by simp)
  · rcases List.mem_filterMap.mp h1 with ⟨e, he, hop⟩
    cases e with
    | updateDentry p' f' name' snap' v' ino' meta' =>
      by_cases hk : ((p', f', name', snap') : DKey) = (p, f, name, snap)
      · rw [opAt, if_pos hk] at hop
        obtain ⟨hp, hf, hn, hs⟩ : p' = p ∧ f' = f ∧ name' = name ∧ snap' = snap := by
          simpa [Prod.ext_iff] using hk
        obtain ⟨hv, hi, hm⟩ : v' = d.version ∧ ino' = d.ino ∧ meta' = d.meta := by
          cases hop; exact ⟨rfl, rfl, rfl⟩
        subst hp; subst hf; subst hn; subst hs
        subst hv; subst hi; subst hm
        exact he
      · rw [opAt, if_neg hk] at hop
        cases hop
    | unlinkDentry p' f' name' snap' v' =>
      by_cases hk : ((p', f', name', snap') : DKey) = (p, f, name, snap)
      · rw [opAt, if_pos hk] at hop
        cases hop
      · rw [opAt, if_neg hk] at hop
        cases hop
    | openSession c => cases hop
    | closeSession c => cases hop
    | noop => cases hop
    | subtreeMap => cases hop

/-- C9 witness — the dentry recovered for `a` carries the journalled inode
number 100, i.e. the update event for `a` with inode 100 is in the journal. -/
theorem recovered_ino_from_journal_witness :
    Event.updateDentry ROOT_INO 0 "a" SnapId.head 1 100 ⟨0⟩ ∈ basicJournal :=
  recovered_ino_from_journal basicJournal ROOT_INO 0 "a" SnapId.head
    ⟨1, 100, ⟨0⟩⟩ (by decide)

/-! ## Table Reset Engine -/

/-- Modelled from the spec (§3, §4.4): per-rank inode allocation table,
holding the next-free identifier and the set of issued identifiers. -/
structure InoTable where
  next : Ino
  issued : Finset Ino
  deriving DecidableEq

/-- Inode numbers referenced by the dentries existing in the store. -/
def referencedInos (s : Store) : Multiset Ino :=
  s.dentries.entries.map fun e => e.2.ino

/-- The maximum inode number referenced by any existing dentry. -/
def maxReferencedIno (s : Store) : Ino := (referencedInos s).sup

/-- Modelled from the spec (§4.4): a Table Reset replaces the issued set
with empty and sets the next-free pointer to the smallest value guaranteed
not to collide with any identifier already observable in the backing
store — the engine queries the current maximum referenced identifier and
never resets blindly to zero. -/
def resetInoTable (s : Store) : InoTable :=
  { next := maxReferencedIno s + 1, issued := ∅ }

/-- Issue one inode number from the table. -/
def allocIno (t : InoTable) : Ino × InoTable :=
  (t.next, { next := t.next + 1, issued := insert t.next t.issued })

/-- The inode numbers issued by `n` successive allocations. -/
def allocList (t : InoTable) : Nat → List Ino
  | 0 => []
  | n + 1 => t.next :: allocList (allocIno t).2 n

theorem next_le_allocList :
    ∀ (n : Nat) (t : InoTable) (i : Ino), i ∈ allocList t n → t.next ≤ i := by
  intro n
  induction n with
  | zero => intro t i hi; simp [allocList] at hi
  | succ n ih =>
    intro t i hi
    rcases List.mem_cons.mp hi with h | h
    · exact Nat.le_of_eq h.symm
    · have h2 := ih (allocIno t).2 i h
      simp only [allocIno] at h2
      exact Nat.le_of_succ_le h2

theorem referenced_le_max (s : Store) (i : Ino) (h : i ∈ referencedInos s) :
    i ≤ maxReferencedIno s :=
  Multiset.le_sup h

/-- C7 — No identifier reuse after Table Reset: every inode number issued
by the inode table after a Table Reset differs from every inode number
already referenced by an existing dentry in the backing store at reset
time, because reset sets the next-free pointer from the store's current
maximum rather than to zero. -/
theorem no_ino_reuse_after_reset (s : Store) (n : Nat) (i : Ino)
    (hi : i ∈ allocList (resetInoTable s) n) :
    i ∉ referencedInos s := by
  intro hmem
  have h1 : i ≤ maxReferencedIno s := referenced_le_max s i hmem
  have h2 : (resetInoTable s).next ≤ i := next_le_allocList n _ i hi
  simp only [resetInoTable] at h2
  exact Nat.lt_irrefl i (Nat.lt_of_le_of_lt h1 h2)

/-- C7 witness — for the store recovered from the basic journal (max
referenced inode 101), the first inode issued after reset is 102, which is
not referenced by any existing dentry. -/
theorem no_ino_reuse_after_reset_witness :
    (102 ∈ allocList (resetInoTable (recoverDentries Store.empty basicJournal)) 3)
    ∧ 102 ∉ referencedInos (recoverDentries Store.empty basicJournal) :=
  ⟨by decide,
   no_ino_reuse_after_reset (recoverDentries Store.empty basicJournal) 3 102
     (by decide)⟩

/-! ## Backing-Store Object Eraser -/

/-- Modelled from the spec (§4.5): `erase(rank)` deletes every
backing-store object whose key carries the rank's scoping prefix and
returns the number of objects removed. -/
def eraseRank (s : Store) (r : Nat) : Store × Nat :=
  ({ s with objects := s.objects.filter fun k => ¬ k.scope = Scope.rank r },
   (s.objects.filter fun k => k.scope = Scope.rank r).card)

/-- C8 — Prefix isolation and idempotence of the Object Eraser: erasing
rank `r` removes no object scoped to a different rank or to the
shared/global namespace (each such object is still present afterwards),
and erasing again removes zero objects, leaves the store unchanged, and is
not an error. -/
theorem eraseRank_isolated_idem (s : Store) (r : Nat) :
    (∀ k ∈ s.objects, k.scope ≠ Scope.rank r → k ∈ (eraseRank s r).1.objects)
    ∧ eraseRank (eraseRank s r).1 r = ((eraseRank s r).1, 0) := by
  constructor
  · intro k hk hs
    simp only [eraseRank, Finset.mem_filter]
    exact ⟨hk, hs⟩
  · have hsub : ((eraseRank s r).1.objects.filter
        fun k => ¬ k.scope = Scope.rank r) = (eraseRank s r).1.objects := by
      apply Finset.filter_eq_self.mpr
      intro k hk
      exact (Finset.mem_filter.mp hk).2
    have hzero : ((eraseRank s r).1.objects.filter
        fun k => k.scope = Scope.rank r) = ∅ := by
      apply Finset.filter_eq_empty_iff.mpr
      intro k hk
      exact (Finset.mem_filter.mp hk).2
    show ({ (eraseRank s r).1 with
        objects := (eraseRank s r).1.objects.filter fun k => ¬ k.scope = Scope.rank r },
      ((eraseRank s r).1.objects.filter fun k => k.scope = Scope.rank r).card)
      = ((eraseRank s r).1, 0)
    rw [hsub, hzero]
    rfl

/-- C8 witness — a store with one rank-0 object, one rank-1 object and one
global object: erasing rank 1 keeps the rank-0 and global objects, and a
second erase removes nothing and is not an error. -/
theorem eraseRank_isolated_idem_witness :
    (⟨Scope.rank 0, "mds0_inotable"⟩ ∈
        (eraseRank ⟨∅, ∅, ∅, {⟨Scope.rank 0, "mds0_inotable"⟩,
          ⟨Scope.rank 1, "mds1_inotable"⟩, ⟨Scope.global, "root"⟩}⟩ 1).1.objects)
    ∧ (⟨Scope.global, "root"⟩ ∈
        (eraseRank ⟨∅, ∅, ∅, {⟨Scope.rank 0, "mds0_inotable"⟩,
          ⟨Scope.rank 1, "mds1_inotable"⟩, ⟨Scope.global, "root"⟩}⟩ 1).1.objects)
    ∧ eraseRank (eraseRank ⟨∅, ∅, ∅, {⟨Scope.rank 0, "mds0_inotable"⟩,
          ⟨Scope.rank 1, "mds1_inotable"⟩, ⟨Scope.global, "root"⟩}⟩ 1).1 1
      = ((eraseRank ⟨∅, ∅, ∅, {⟨Scope.rank 0, "mds0_inotable"⟩,
          ⟨Scope.rank 1, "mds1_inotable"⟩, ⟨Scope.global, "root"⟩}⟩ 1).1, 0) :=
  ⟨(eraseRank_isolated_idem _ 1).1 _ (by decide) (by decide),
   (eraseRank_isolated_idem _ 1).1 _ (by decide) (by decide),
   (eraseRank_isolated_idem _ 1).2⟩

/-! ## Recovery Orchestrator -/

/-- Modelled from the spec (§6, §7): error outcome of an orchestrator step
invoked out of sequence. -/
inductive OrchError
  | OrderingViolation
  deriving DecidableEq, Repr

/-- Modelled from the spec (§4.6): the orchestrator's view of one
disaster-recovery run — the ranks being retired, the per-rank phase
completions, the backing store, and the cluster map's authority count. -/
structure OrchState where
  retired : List Nat
  recoveredJournals : List Nat
  erasedOrphans : List Nat
  store : Store
  authCount : Nat

/-- Modelled from the spec (§4.6): the `ResettingClusterMap` step.  It is
refused with `OrderingViolation`, leaving the state (in particular the
backing store) unmodified, while any retired rank has not completed
`ErasingOrphans`; otherwise it shrinks the authority-domain count to the
surviving set. -/
def resetClusterMap (st : OrchState) : OrchState × Option OrchError :=
  if st.retired.all fun r => st.erasedOrphans.contains r then
    ({ st with authCount := 1 }, none)
  else (st, some OrchError.OrderingViolation)

/-- C3 — Ordering enforcement with atomic failure: invoking
`ResettingClusterMap` while some retired rank has not completed
`ErasingOrphans` fails with `OrderingViolation` and leaves the backing
store completely unmodified; when every retired rank has completed
`ErasingOrphans`, the step is permitted (no error). -/
theorem resetClusterMap_guard (st : OrchState) :
    (¬ (∀ r ∈ st.retired, r ∈ st.erasedOrphans) →
      resetClusterMap st = (st, some OrchError.OrderingViolation)
      ∧ (resetClusterMap st).1.store = st.store)
    ∧ ((∀ r ∈ st.retired, r ∈ st.erasedOrphans) →
      (resetClusterMap st).2 = none) := by
  have hiff : ((st.retired.all fun r => st.erasedOrphans.contains r) = true)
      ↔ (∀ r ∈ st.retired, r ∈ st.erasedOrphans) := by
    simp [List.all_eq_true]
  constructor
  · intro h
    have hcond : ¬ ((st.retired.all fun r => st.erasedOrphans.contains r) = true) :=
      fun hc => h (hiff.mp hc)
    refine ⟨?_, ?_⟩ <;> simp only [resetClusterMap, if_neg hcond]
  · intro h
    simp only [resetClusterMap, if_pos (hiff.mpr h)]

/-- C3 witness — with retired rank 1 not yet erased the step fails with
`OrderingViolation` and the state is untouched; once rank 1 has completed
`ErasingOrphans` the step is permitted. -/
theorem resetClusterMap_guard_witness :
    (resetClusterMap ⟨[1], [0, 1], [], Store.empty, 2⟩
        = (⟨[1], [0, 1], [], Store.empty, 2⟩, some OrchError.OrderingViolation))
    ∧ (resetClusterMap ⟨[1], [0, 1], [1], Store.empty, 2⟩).2 = none :=
  ⟨((resetClusterMap_guard ⟨[1], [0, 1], [], Store.empty, 2⟩).1 (by decide)).1,
   (resetClusterMap_guard ⟨[1], [0, 1], [1], Store.empty, 2⟩).2 (by decide)⟩

/-! ## Event Codec and Journal Reader -/

/-- Modelled from the spec (§4.1): decode failures.  A truncated trailing
record yields `Truncated`; an unknown tag yields `InvalidTag`; a record
whose checksum does not verify yields `ChecksumMismatch`. -/
inductive DecodeError
  | Truncated
  | InvalidTag
  | ChecksumMismatch
  deriving DecidableEq, Repr

/-- Modelled from the spec (§6): exit status of a recovery operation. -/
inductive RecoveryStatus
  | Success
  | PartiallyRecovered
  deriving DecidableEq, Repr

/-- Wire encoding of a snapshot id. -/
def encSnap : SnapId → List Nat
  | .head => [0]
  | .snap n => [1, n]

/-- Wire encoding of a string: length-prefixed character codes. -/
def encString (s : String) : List Nat :=
  s.length :: s.toList.map Char.toNat

/-- Modelled from the spec (§4.1): self-delimiting wire encoding of one
journal event — a tag byte followed by the event's fields (the spec fixes
no concrete wire format; this one is chosen so that decoding is
self-delimiting, as the contract requires). -/
def encodeEvent : Event → List Nat
  | .updateDentry p f name snap v ino meta =>
    0 :: p :: f :: encSnap snap ++ v :: ino :: meta.mode :: encString name
  | .unlinkDentry p f name snap v =>
    1 :: p :: f :: encSnap snap ++ v :: encString name
  | .openSession c => [2, c]
  | .closeSession c => [3, c]
  | .noop => [4]
  | .subtreeMap => [5]

/-- The concatenated wire encoding of a journal. -/
def encodeJournal (evs : List Event) : List Nat :=
  (evs.map encodeEvent).flatten

/-- Take `n` elements from the front, failing if the list is too short. -/
def takeN : Nat → List Nat → Option (List Nat × List Nat)
  | 0, l => some ([], l)
  | _ + 1, [] => none
  | n + 1, x :: r =>
    match takeN n r with
    | some (a, b) => some (x :: a, b)
    | none => none

theorem takeN_length :
    ∀ (n : Nat) (l a b : List Nat), takeN n l = some (a, b) → b.length ≤ l.length := by
  intro n
  induction n with
  | zero =>
    intro l a b h
    simp only [takeN, Option.some.injEq, Prod.mk.injEq] at h
    rw [← h.2]
  | succ n ih =>
    intro l a b h
    cases l with
    | nil => simp [takeN] at h
    | cons x r =>
      simp only [takeN] at h
      cases ht : takeN n r with
      | none => rw [ht] at h; cases h
      | some p =>
        rw [ht] at h
        cases p with
        | mk a' b' =>
          simp only [Option.some.injEq, Prod.mk.injEq] at h
          have := ih r a' b' ht
          rw [← h.2]
          simp only [List.length_cons]
          omega

/-- Modelled from the spec (§4.1): `decode` one event from the front of
the stream.  Decoding is self-delimiting: a truncated trailing record
yields `Truncated` and an unknown tag (event tag or snapshot tag) yields
`InvalidTag` — never a panic or silent zero-fill. -/
def decodeOne : List Nat → Except DecodeError (Event × List Nat)
  | 0 :: p :: f :: 0 :: v :: ino :: mode :: len :: tail =>
    match takeN len tail with
    | some (cs, rest) =>
      .ok (.updateDentry p f (String.mk (cs.map Char.ofNat)) .head v ino ⟨mode⟩, rest)
    | none => .error .Truncated
  | 0 :: p :: f :: 1 :: n :: v :: ino :: mode :: len :: tail =>
    match takeN len tail with
    | some (cs, rest) =>
      .ok (.updateDentry p f (String.mk (cs.map Char.ofNat)) (.snap n) v ino ⟨mode⟩, rest)
    | none => .error .Truncated
  | 0 :: _ :: _ :: t :: _ => if 2 ≤ t then .error .InvalidTag else .error .Truncated
  | 0 :: _ => .error .Truncated
  | 1 :: p :: f :: 0 :: v :: len :: tail =>
    match takeN len tail with
    | some (cs, rest) =>
      .ok (.unlinkDentry p f (String.mk (cs.map Char.ofNat)) .head v, rest)
    | none => .error .Truncated
  | 1 :: p :: f :: 1 :: n :: v :: len :: tail =>
    match takeN len tail with
    | some (cs, rest) =>
      .ok (.unlinkDentry p f (String.mk (cs.map Char.ofNat)) (.snap n) v, rest)
    | none => .error .Truncated
  | 1 :: _ :: _ :: t :: _ => if 2 ≤ t then .error .InvalidTag else .error .Truncated
  | 1 :: _ => .error .Truncated
  | 2 :: c :: r => .ok (.openSession c, r)
  | 3 :: c :: r => .ok (.closeSession c, r)
  | 4 :: r => .ok (.noop, r)
  | 5 :: r => .ok (.subtreeMap, r)
  | [] | [2] | [3] => .error .Truncated
  | _ => .error .InvalidTag

theorem decodeOne_length (l : List Nat) (ev : Event) (rest : List Nat)
    (h : decodeOne l = .ok (ev, rest)) : rest.length < l.length := by
  unfold decodeOne at h
  repeat' split at h
  all_goals cases h
  all_goals
    solve
      | (simp only [List.length_cons]; omega)
      | (rename_i heq
         have h2 := takeN_length _ _ _ _ heq
         simp only [List.length_cons]
         omega)

/-- Modelled from the spec (§4.2): the Journal Reader produces the finite
sequence of decoded events from a rank's journal stream, stopping at the
first decode failure: the well-formed prefix is returned together with the
error that ended it (`none` when the stream ends cleanly).  A journal is
treated as valid up to the last complete record, and nothing after the
first bad record is trusted. -/
def readEvents (s : List Nat) : List Event × Option DecodeError :=
  match hd : decodeOne s with
  | .error e => if s.isEmpty then ([], none) else ([], some e)
  | .ok (ev, rest) =>
    let p := readEvents rest
    (ev :: p.1, p.2)
termination_by s.length
decreasing_by exact decodeOne_length s ev rest hd

theorem readEvents_eq (s : List Nat) :
    readEvents s =
      match decodeOne s with
      | .error e => if s.isEmpty then ([], none) else ([], some e)
      | .ok (ev, rest) => (ev :: (readEvents rest).1, (readEvents rest).2) := by
  rw [readEvents]
  cases h : decodeOne s with
  | error e => simp [h]
  | ok p =>
    cases p with
    | mk ev rest => simp [h]

/-- Modelled from the spec (§4.3, §6): run dentry recovery over the events
the Journal Reader yields from a raw journal stream; the exit status is
`PartiallyRecovered` when the reader stopped at a decode error and
`Success` otherwise. -/
def recoverFromStream (s : Store) (stream : List Nat) : Store × RecoveryStatus :=
  (recoverDentries s (readEvents stream).1,
   match (readEvents stream).2 with
   | none => RecoveryStatus.Success
   | some _ => RecoveryStatus.PartiallyRecovered)

theorem takeN_exact : ∀ (a r : List Nat), takeN a.length (a ++ r) = some (a, r) := by
  intro a
  induction a with
  | nil => intro r; rfl
  | cons x a' ih => intro r; simp [takeN, ih r]

theorem takeN_of_length (n : Nat) (a r : List Nat) (h : a.length = n) :
    takeN n (a ++ r) = some (a, r) := h ▸ takeN_exact a r

theorem takeN_name (name : String) (rest : List Nat) :
    takeN name.length (List.map Char.toNat name.data ++ rest)
      = some (List.map Char.toNat name.data, rest) := by
  apply takeN_of_length
  rw [List.length_map]
  rfl

theorem map_ofNat_toNat (l : List Char) : (l.map Char.toNat).map Char.ofNat = l := by
  simp [List.map_map, Function.comp_def, Char.ofNat_toNat]

theorem mk_map_comp (name : String) :
    (⟨List.map (Char.ofNat ∘ Char.toNat) name.data⟩ : String) = name := by
  have h : Char.ofNat ∘ Char.toNat = id := funext Char.ofNat_toNat
  rw [h, List.map_id]

/-- Decoding is a left inverse of encoding, for any trailing stream. -/
theorem decodeOne_encodeEvent (ev : Event) (rest : List Nat) :
    decodeOne (encodeEvent ev ++ rest) = .ok (ev, rest) := by
  cases ev with
  | updateDentry p f name snap v ino meta =>
    cases snap with
    | head => simp [encodeEvent, encSnap, encString, decodeOne, takeN_name, map_ofNat_toNat, mk_map_comp]
    | snap n => simp [encodeEvent, encSnap, encString, decodeOne, takeN_name, map_ofNat_toNat, mk_map_comp]
  | unlinkDentry p f name snap v =>
    cases snap with
    | head => simp [encodeEvent, encSnap, encString, decodeOne, takeN_name, map_ofNat_toNat, mk_map_comp]
    | snap n => simp [encodeEvent, encSnap, encString, decodeOne, takeN_name, map_ofNat_toNat, mk_map_comp]
  | openSession c => rfl
  | closeSession c => rfl
  | noop => rfl
  | subtreeMap => rfl

theorem readEvents_append (evs : List Event) (bad : List Nat) (e : DecodeError)
    (hne : bad ≠ []) (hbad : decodeOne bad = .error e) :
    readEvents (encodeJournal evs ++ bad) = (evs, some e) := by
  induction evs with
  | nil =>
    have hemp : bad.isEmpty = false := by
      cases bad with
      | nil => exact absurd rfl hne
      | cons x r => rfl
    rw [readEvents_eq]
    simp only [encodeJournal, List.map_nil, List.flatten_nil, List.nil_append]
    rw [hbad]
    simp [hemp]
  | cons ev rest ih =>
    have hconcat : encodeJournal (ev :: rest) ++ bad
        = encodeEvent ev ++ (encodeJournal rest ++ bad) := by
      simp [encodeJournal]
    rw [hconcat, readEvents_eq, decodeOne_encodeEvent]
    simp only [ih]

/-- C6 — Truncated-tail handling: for every journal stream consisting of a
well-formed prefix of encoded events followed by a nonempty undecodable
(garbage or truncated) tail, dentry recovery applies exactly the events of
the well-formed prefix and finishes with `PartiallyRecovered` status
rather than surfacing an error; nothing after the first bad record is
applied. -/
theorem truncated_tail_partial (s : Store) (evs : List Event) (bad : List Nat)
    (e : DecodeError) (hne : bad ≠ []) (hbad : decodeOne bad = .error e) :
    recoverFromStream s (encodeJournal evs ++ bad)
      = (recoverDentries s evs, RecoveryStatus.PartiallyRecovered) := by
  unfold recoverFromStream
  rw [readEvents_append evs bad e hne hbad]

/-- C6 witness — three well-formed events followed by five garbage bytes:
exactly the three events are applied and the status is
`PartiallyRecovered`. -/
theorem truncated_tail_partial_witness :
    recoverFromStream Store.empty (encodeJournal
        [Event.updateDentry ROOT_INO 0 "a" SnapId.head 1 100 ⟨0⟩,
         Event.updateDentry ROOT_INO 0 "b" SnapId.head 1 101 ⟨0⟩,
         Event.noop] ++ [9, 9, 9, 9, 9])
      = (recoverDentries Store.empty
          [Event.updateDentry ROOT_INO 0 "a" SnapId.head 1 100 ⟨0⟩,
           Event.updateDentry ROOT_INO 0 "b" SnapId.head 1 101 ⟨0⟩,
           Event.noop], RecoveryStatus.PartiallyRecovered) :=
  truncated_tail_partial Store.empty _ [9, 9, 9, 9, 9] DecodeError.InvalidTag
    (by decide) rfl
